import Mathlib

/-!
Verification development for `apt-install-docs`
(source: `src/apt_install_docs/__init__.py`).

The program walks the apt package cache, and for every installed package
inspects the "suggests" relations of its installed version; every candidate
version whose owning package's short name ends in `-doc`, belonging to a
relation no disjunct of which is already installed, gets its package marked
for installation with `from_user=False`.  A reporter (`describe`) lists the
pending changes and optionally asks for confirmation, and `main` wires a
small CLI around these.

The apt cache is modelled as a list of packages.  Only the fields the
program reads are modelled: a package's (short) name, its installed
version (carrying the suggests relations of that version, as
`pkg.versions[pkg.installed]` resolves to exactly the installed version),
and its mark-for-install state.  A version is identified across the cache
by its owning package's name plus a version id, which is all
`dep.installed_target_versions` needs: a target version is "installed"
exactly when it is the installed version of its package.

Python string operations are modelled on the underlying character lists
(`str.endswith`, `str.lower`, `str.startswith`, and the lexicographic
order used by `sorted`), since the program only ever applies them to
package names and input lines.
-/

namespace AptInstallDocs

/-- Model of Python `s.endswith(post)`: `post` is a suffix of `s`. -/
def strEndsWith (s post : String) : Bool :=
  post.data.isSuffixOf s.data

/-- Model of Python `s.startswith(pre)`: `pre` is a prefix of `s`. -/
def strStartsWith (s pre : String) : Bool :=
  pre.data.isPrefixOf s.data

/-- Model of Python `s.lower()`: lower-case every character. -/
def strToLower (s : String) : String :=
  ⟨s.data.map Char.toLower⟩

/-- Lexicographic comparison of character lists by code point, the order
Python `sorted` uses on package names. -/
def charListLe : List Char → List Char → Bool
  | [], _ => true
  | _ :: _, [] => false
  | a :: as, b :: bs =>
    if a.val < b.val then true
    else if b.val < a.val then false
    else charListLe as bs

/-- Model of the string order used by Python `sorted` on names. -/
def strLe (a b : String) : Bool :=
  charListLe a.data b.data

/-- Insert a name into an already sorted list of names. -/
def insertName (n : String) : List String → List String
  | [] => [n]
  | m :: ms => if strLe n m then n :: m :: ms else m :: insertName n ms

/-- Model of Python `sorted` (insertion sort) on a list of names. -/
def sortNames : List String → List String
  | [] => []
  | n :: ns => insertName n (sortNames ns)

/-- A candidate version (`apt.package.Version`) as seen through a suggests
relation: the short name of its owning package and a version id that
identifies the version among its package's versions. -/
structure TargetVersion where
  pkgName : String
  verId : Nat
deriving Repr, DecidableEq

/-- A suggests relation (`dep` in `find`): an OR-group whose disjuncts can
be satisfied by any of `targetVersions`. -/
structure Dep where
  targetVersions : List TargetVersion
deriving Repr, DecidableEq

/-- A concrete version of a package, carrying its version id and the
suggests relations of that version (`pkg_version.suggests`). -/
structure InstVersion where
  verId : Nat
  suggests : List Dep
deriving Repr, DecidableEq

/-- A package (`apt.package.Package`): a unique short name, an optional
installed version (with that version's suggests list, since
`pkg.versions[pkg.installed]` resolves to the installed version), and the
mutable mark-for-install state.  `fromUser` records the `from_user`
argument of the last `mark_install`; the automatic-install bit is its
negation. -/
structure Package where
  name : String
  installed : Option InstVersion
  markInstall : Bool
  fromUser : Bool
deriving Repr, DecidableEq

/-- The apt cache, modelled as the list of its packages. -/
abbrev Cache := List Package

/-- The version id installed for the package called `pkgName`, if any. -/
def installedVersionId (cache : Cache) (pkgName : String) : Option Nat :=
  match cache with
  | [] => none
  | p :: ps =>
    if p.name == pkgName then p.installed.map (fun v => v.verId)
    else installedVersionId ps pkgName

/-- Model of `dep.installed_target_versions`: the candidate versions of the
relation that are the currently installed version of their package. -/
def installed_target_versions (cache : Cache) (d : Dep) : List TargetVersion :=
  d.targetVersions.filter
    (fun tv => installedVersionId cache tv.pkgName == some tv.verId)

/-- The effect of `pkg.mark_install(from_user=False)` on one package record:
set the install mark, record that it was not user-requested. -/
def markPkg (p : Package) : Package :=
  { p with markInstall := true, fromUser := false }

/-- Model of `dvers.package.mark_install(from_user=False)`: mark the package
called `pkgName` in the cache. -/
def mark_install (cache : Cache) (pkgName : String) : Cache :=
  cache.map (fun p => if p.name == pkgName then markPkg p else p)

/-- One iteration of `for dep in pkg_version.suggests` in `find`: skip the
relation if some disjunct is already installed, otherwise mark every
candidate whose package name ends in `-doc`. -/
def processDep (cache : Cache) (d : Dep) : Cache :=
  if installed_target_versions cache d ≠ [] then cache
  else
    d.targetVersions.foldl
      (fun c tv =>
        if strEndsWith tv.pkgName ("-doc") then mark_install c tv.pkgName
        else c)
      cache

/-- The body of `find` for one installed version: fold `processDep` over its
suggests relations. -/
def processVersion (cache : Cache) (v : InstVersion) : Cache :=
  v.suggests.foldl processDep cache

/-- One iteration of `for pkg in cache` in `find`: packages with no
installed version are skipped (`continue`); otherwise the installed
version's suggests are processed.  Marking never changes the `name`,
`installed` or `suggests` fields the loop reads, so folding the loop body
over the packages of the initial cache while threading the marked state is
the in-place mutation of the source. -/
def findStep (cache : Cache) (pkg : Package) : Cache :=
  match pkg.installed with
  | none => cache
  | some pkg_version => processVersion cache pkg_version

/-- Model of `find(cache)` (the Scanner): the whole scan, threading the
cache state through every loop iteration.  The `actiongroup` context of the
source is a performance batching hint with no observable effect on the
marked state. -/
def find (cache : Cache) : Cache :=
  cache.foldl findStep cache

/-- The names of the candidates a relation would mark, ignoring the
satisfied-check: candidates whose package name ends in `-doc`. -/
def depMarkNames (d : Dep) : List String :=
  d.targetVersions.filterMap
    (fun tv => if strEndsWith tv.pkgName ("-doc") then some tv.pkgName else none)

/-- The names a relation marks against a given cache: nothing when some
disjunct is already installed, the `-doc` candidates otherwise. -/
def depMarks (cache : Cache) (d : Dep) : List String :=
  if installed_target_versions cache d = [] then depMarkNames d else []

/-- The names an installed version's suggests relations mark. -/
def versionMarks (cache : Cache) (v : InstVersion) : List String :=
  v.suggests.flatMap (depMarks cache)

/-- The names one package contributes to the scan: nothing unless it has an
installed version. -/
def pkgMarks (cache : Cache) (pkg : Package) : List String :=
  match pkg.installed with
  | none => []
  | some v => versionMarks cache v

/-- All names the scan of a cache marks. -/
def findMarks (cache : Cache) : List String :=
  cache.flatMap (pkgMarks cache)

/-- Mark every package of the cache whose name occurs in `names`. -/
def applyMarks (cache : Cache) (names : List String) : Cache :=
  cache.map (fun p => if p.name ∈ names then markPkg p else p)

/-- The fields of the cache the scan reads and never writes: each package's
name and installed version (with its suggests). -/
def skeleton (cache : Cache) : List (String × Option InstVersion) :=
  cache.map (fun p => (p.name, p.installed))

/-- The names of the packages currently marked for installation. -/
def markedNames (cache : Cache) : List String :=
  (cache.filter (fun p => p.markInstall)).map (fun p => p.name)

/-- Model of `cache.get_changes()`: the packages whose state will change —
in this model exactly the packages marked for installation. -/
def get_changes (cache : Cache) : List Package :=
  cache.filter (fun p => p.markInstall)

/-- Console output events of `describe`. -/
inductive OutEvent where
  /-- The no-changes message: "All documentation packages are installed." -/
  | allInstalled
  /-- The header plus the sorted, wrapped list of names to be installed. -/
  | willInstall (names : List String)
  /-- The prompt "Do you want to continue? [Y/n] ". -/
  | continueQuestion
  /-- The message "Abort.". -/
  | abort
deriving Repr, DecidableEq

/-- The observable outcome of `describe`: its return value, what it
printed, the cache as it leaves it, and the input lines it left unread. -/
structure DescribeResult where
  confirmed : Bool
  output : List OutEvent
  cacheAfter : Cache
  stdinAfter : List String
deriving Repr, DecidableEq

/-- Model of `' '.join(p.name for p in sorted(cache.get_changes()))` up to
word wrapping: the sorted names of the pending changes. -/
def sortedChangeNames (cache : Cache) : List String :=
  sortNames ((get_changes cache).map (fun p => p.name))

/-- Model of `describe(cache, prompt)`.  The line-oriented standard input
is passed explicitly and threaded through the result; `none` models the
`EOFError` that `input()` raises when the prompt is read at end of input.
With no pending changes it prints the no-changes message and returns
`False`; otherwise it prints the sorted listing, and then either returns
`False` at once (`prompt=False`), or reads one line, lower-cases it, and
accepts exactly the empty line and lines starting with `y`. -/
def describe (cache : Cache) (prompt : Bool) (stdin : List String) :
    Option DescribeResult :=
  if get_changes cache = [] then
    some ⟨false, [OutEvent.allInstalled], cache, stdin⟩
  else
    let listing := [OutEvent.willInstall (sortedChangeNames cache)]
    if !prompt then
      some ⟨false, listing, cache, stdin⟩
    else
      match stdin with
      | [] => none
      | line :: rest =>
        let choice := strToLower line
        if !(choice == "" || strStartsWith choice ("y")) then
          some ⟨false, listing ++ [OutEvent.continueQuestion, OutEvent.abort],
                cache, rest⟩
        else
          some ⟨true, listing ++ [OutEvent.continueQuestion], cache, rest⟩

/-- The text `main` prints for `--version`. -/
def versionText : String :=
  "apt-install-docs 0.0.1"

/-- Model of the early-exit dispatch of `main` after
`apt_pkg.parse_commandline` has run: `arguments` is the list of leftover
positional arguments, and `helpFlag`/`versionFlag` the config booleans the
parser set for `-h`/`--help` and `-v`/`--version`.  Returns the printed
lines and the exit status when `main` returns early, and `none` when
execution falls through to the scan/describe/install path. -/
def mainEarlyExit (arguments : List String) (helpFlag versionFlag : Bool) :
    Option (List String × Nat) :=
  if !arguments.isEmpty || helpFlag then
    some (["TODO(joelh)"], 0)
  else if versionFlag then
    some ([versionText], 0)
  else
    none

/-! Concrete caches, relations and inputs used by the closed witness
theorems below, mirroring the scenarios of the documentation
(`augeas-lenses` suggesting `augeas-doc`, `binutils` suggesting an already
installed `binutils-doc`). -/

/-- A cache where `libaugeas` version 1 is installed. -/
def c2Cache : Cache :=
  [⟨"libaugeas", some ⟨1, []⟩, false, false⟩,
   ⟨"augeas-doc", none, false, false⟩]

/-- A relation one disjunct of which (`libaugeas` 1) is already installed,
while another candidate (`augeas-doc`) ends in `-doc`. -/
def c2Dep : Dep := ⟨[⟨"libaugeas", 1⟩, ⟨"augeas-doc", 7⟩]⟩

/-- A cache where installed `augeas-lenses` suggests the not-installed
`augeas-doc`. -/
def c3Cache : Cache :=
  [⟨"augeas-lenses", some ⟨1, [⟨[⟨"augeas-doc", 2⟩]⟩]⟩, false, false⟩,
   ⟨"augeas-doc", none, false, false⟩]

/-- The `augeas-doc` package of `c3Cache` before and after the scan. -/
def c3Pair : Package × Package :=
  (⟨"augeas-doc", none, false, false⟩, ⟨"augeas-doc", none, true, false⟩)

/-- A cache with one pending change. -/
def c5Cache : Cache := [⟨"binutils-doc", none, true, false⟩]

/-- The outcome of `describe c5Cache true` on input line `yes`. -/
def c5Result : DescribeResult :=
  ⟨true, [OutEvent.willInstall ["binutils-doc"], OutEvent.continueQuestion],
   c5Cache, []⟩

/-- A cache with no pending change: `binutils` suggests `binutils-doc`,
which is already installed. -/
def c6Cache : Cache :=
  [⟨"binutils", some ⟨1, [⟨[⟨"binutils-doc", 2⟩]⟩]⟩, false, false⟩,
   ⟨"binutils-doc", some ⟨2, []⟩, false, false⟩]

/-- A cache with one pending change, for the frame witness. -/
def c9Cache : Cache := [⟨"emacs-doc", none, true, false⟩]

/-- The outcome of `describe c9Cache true` on input line `n`. -/
def c9Result : DescribeResult :=
  ⟨false,
   [OutEvent.willInstall ["emacs-doc"], OutEvent.continueQuestion,
    OutEvent.abort],
   c9Cache, []⟩

/-- A cache whose only package is already marked. -/
def c10Cache : Cache := [⟨"gcc-doc", none, true, false⟩]

/-- The marked `gcc-doc` package of `c10Cache` before and after the scan. -/
def c10Pair : Package × Package :=
  (⟨"gcc-doc", none, true, false⟩, ⟨"gcc-doc", none, true, false⟩)

/-! Basic algebra of marking. -/

theorem markPkg_markPkg (p : Package) : markPkg (markPkg p) = markPkg p := rfl

theorem applyMarks_nil (c : Cache) : applyMarks c [] = c := by
  simp [applyMarks]

theorem mark_install_eq_applyMarks (c : Cache) (n : String) :
    mark_install c n = applyMarks c [n] := by
  unfold mark_install applyMarks
  apply List.map_congr_left
  intro p _
  by_cases h : p.name = n <;> simp [h]

theorem applyMarks_applyMarks (c : Cache) (l₁ l₂ : List String) :
    applyMarks (applyMarks c l₁) l₂ = applyMarks c (l₁ ++ l₂) := by
  unfold applyMarks
  rw [List.map_map]
  apply List.map_congr_left
  intro p _
  by_cases h₁ : p.name ∈ l₁ <;> by_cases h₂ : p.name ∈ l₂ <;>
    simp [Function.comp, h₁, h₂, markPkg]

theorem applyMarks_congr (c : Cache) (l₁ l₂ : List String)
    (h : ∀ n, n ∈ l₁ ↔ n ∈ l₂) : applyMarks c l₁ = applyMarks c l₂ := by
  unfold applyMarks
  apply List.map_congr_left
  intro p _
  exact if_congr (h p.name) rfl rfl

/-! The scan reads only each package's name and installed version, and
marking never changes those fields: everything it reads is invariant under
`applyMarks`. -/

theorem skeleton_applyMarks (c : Cache) (l : List String) :
    skeleton (applyMarks c l) = skeleton c := by
  unfold skeleton applyMarks
  rw [List.map_map]
  apply List.map_congr_left
  intro p _
  by_cases h : p.name ∈ l <;> simp [Function.comp, h, markPkg]

theorem installedVersionId_congr {c₁ c₂ : Cache}
    (h : skeleton c₁ = skeleton c₂) (n : String) :
    installedVersionId c₁ n = installedVersionId c₂ n := by
  induction c₁ generalizing c₂ with
  | nil =>
    cases c₂ with
    | nil => rfl
    | cons q qs => simp [skeleton] at h
  | cons p ps ih =>
    cases c₂ with
    | nil => simp [skeleton] at h
    | cons q qs =>
      simp only [skeleton, List.map_cons, List.cons.injEq, Prod.mk.injEq] at h
      obtain ⟨⟨h1, h2⟩, h3⟩ := h
      unfold installedVersionId
      rw [h1, h2]
      cases hq : q.name == n with
      | true => rfl
      | false => exact ih h3

theorem installed_target_versions_congr {c₁ c₂ : Cache}
    (h : skeleton c₁ = skeleton c₂) (d : Dep) :
    installed_target_versions c₁ d = installed_target_versions c₂ d := by
  unfold installed_target_versions
  apply List.filter_congr
  intro tv _
  rw [installedVersionId_congr h]

theorem depMarks_congr {c₁ c₂ : Cache} (h : skeleton c₁ = skeleton c₂)
    (d : Dep) : depMarks c₁ d = depMarks c₂ d := by
  unfold depMarks
  rw [installed_target_versions_congr h]

theorem versionMarks_congr {c₁ c₂ : Cache} (h : skeleton c₁ = skeleton c₂)
    (v : InstVersion) : versionMarks c₁ v = versionMarks c₂ v := by
  unfold versionMarks
  induction v.suggests with
  | nil => rfl
  | cons d ds ih => simp only [List.flatMap_cons, depMarks_congr h, ih]

theorem pkgMarks_congr {c₁ c₂ : Cache} (h : skeleton c₁ = skeleton c₂)
    (pkg : Package) : pkgMarks c₁ pkg = pkgMarks c₂ pkg := by
  unfold pkgMarks
  cases pkg.installed with
  | none => rfl
  | some v => exact versionMarks_congr h v

theorem flatMap_pkgMarks_skel (c : Cache) {l₁ l₂ : List Package}
    (h : skeleton l₁ = skeleton l₂) :
    l₁.flatMap (pkgMarks c) = l₂.flatMap (pkgMarks c) := by
  induction l₁ generalizing l₂ with
  | nil =>
    cases l₂ with
    | nil => rfl
    | cons q qs => simp [skeleton] at h
  | cons p ps ih =>
    cases l₂ with
    | nil => simp [skeleton] at h
    | cons q qs =>
      simp only [skeleton, List.map_cons, List.cons.injEq, Prod.mk.injEq] at h
      obtain ⟨⟨h1, h2⟩, h3⟩ := h
      simp only [List.flatMap_cons]
      have hhead : pkgMarks c p = pkgMarks c q := by
        unfold pkgMarks
        rw [h2]
      rw [hhead, ih h3]

theorem findMarks_congr {c₁ c₂ : Cache} (h : skeleton c₁ = skeleton c₂) :
    findMarks c₁ = findMarks c₂ := by
  unfold findMarks
  have step1 : ∀ l : List Package,
      l.flatMap (pkgMarks c₁) = l.flatMap (pkgMarks c₂) := by
    intro l
    induction l with
    | nil => rfl
    | cons p ps ih => simp only [List.flatMap_cons, pkgMarks_congr h, ih]
  rw [step1 c₁, flatMap_pkgMarks_skel c₂ h]

/-! A closed form for the scan: `find` marks exactly the names in
`findMarks`, computed against the starting cache. -/

theorem foldTargets_eq (tvs : List TargetVersion) (c : Cache) :
    tvs.foldl
        (fun c tv =>
          if strEndsWith tv.pkgName ("-doc") then mark_install c tv.pkgName
          else c)
        c
      = applyMarks c
          (tvs.filterMap
            (fun tv =>
              if strEndsWith tv.pkgName ("-doc") then some tv.pkgName
              else none)) := by
  induction tvs generalizing c with
  | nil => simp [applyMarks_nil]
  | cons tv tvs ih =>
    simp only [List.foldl_cons, List.filterMap_cons]
    by_cases h : strEndsWith tv.pkgName ("-doc") = true
    · rw [if_pos h, if_pos h, ih, mark_install_eq_applyMarks,
        applyMarks_applyMarks, List.singleton_append]
    · rw [if_neg h, if_neg h, ih]

theorem processDep_eq (c : Cache) (d : Dep) :
    processDep c d = applyMarks c (depMarks c d) := by
  unfold processDep depMarks depMarkNames
  by_cases h : installed_target_versions c d = []
  · rw [if_neg (not_not_intro h), if_pos h, foldTargets_eq]
  · rw [if_pos h, if_neg h, applyMarks_nil]

theorem foldDeps_eq (ds : List Dep) (c₀ : Cache) :
    ∀ c : Cache, skeleton c = skeleton c₀ →
      ds.foldl processDep c = applyMarks c (ds.flatMap (depMarks c₀)) := by
  induction ds with
  | nil =>
    intro c _
    simp [applyMarks_nil]
  | cons d ds ih =>
    intro c h
    simp only [List.foldl_cons, List.flatMap_cons]
    rw [processDep_eq, depMarks_congr h,
      ih (applyMarks c (depMarks c₀ d)) (by rw [skeleton_applyMarks, h]),
      applyMarks_applyMarks]

theorem processVersion_eq (c₀ : Cache) (v : InstVersion) (c : Cache)
    (h : skeleton c = skeleton c₀) :
    processVersion c v = applyMarks c (versionMarks c₀ v) :=
  foldDeps_eq v.suggests c₀ c h

theorem findStep_none (c : Cache) (pkg : Package) (h : pkg.installed = none) :
    findStep c pkg = c := by
  unfold findStep
  rw [h]

theorem findStep_some (c : Cache) (pkg : Package) (v : InstVersion)
    (h : pkg.installed = some v) : findStep c pkg = processVersion c v := by
  unfold findStep
  rw [h]

theorem pkgMarks_none (c : Cache) (pkg : Package) (h : pkg.installed = none) :
    pkgMarks c pkg = [] := by
  unfold pkgMarks
  rw [h]

theorem pkgMarks_some (c : Cache) (pkg : Package) (v : InstVersion)
    (h : pkg.installed = some v) : pkgMarks c pkg = versionMarks c v := by
  unfold pkgMarks
  rw [h]

theorem foldSteps_eq (pkgs : List Package) (c₀ : Cache) :
    ∀ c : Cache, skeleton c = skeleton c₀ →
      pkgs.foldl findStep c = applyMarks c (pkgs.flatMap (pkgMarks c₀)) := by
  induction pkgs with
  | nil =>
    intro c _
    simp [applyMarks_nil]
  | cons pkg pkgs ih =>
    intro c h
    simp only [List.foldl_cons, List.flatMap_cons]
    cases hp : pkg.installed with
    | none =>
      rw [findStep_none c pkg hp, pkgMarks_none c₀ pkg hp, List.nil_append,
        ih c h]
    | some v =>
      rw [findStep_some c pkg v hp, pkgMarks_some c₀ pkg v hp,
        processVersion_eq c₀ v c h,
        ih (applyMarks c (versionMarks c₀ v))
          (by rw [skeleton_applyMarks, h]),
        applyMarks_applyMarks]

theorem find_eq (cache : Cache) :
    find cache = applyMarks cache (findMarks cache) :=
  foldSteps_eq cache cache cache rfl

theorem find_skeleton (cache : Cache) : skeleton (find cache) = skeleton cache := by
  rw [find_eq]
  exact skeleton_applyMarks cache (findMarks cache)

theorem find_find (cache : Cache) : find (find cache) = find cache := by
  rw [find_eq (find cache), findMarks_congr (find_skeleton cache),
    find_eq cache, applyMarks_applyMarks]
  exact applyMarks_congr cache _ _ (fun n => by simp [List.mem_append])

/-! Membership characterizations of the mark computation. -/

theorem mem_depMarkNames {d : Dep} {name : String} :
    name ∈ depMarkNames d ↔
      ∃ tv ∈ d.targetVersions,
        tv.pkgName = name ∧ strEndsWith tv.pkgName ("-doc") = true := by
  unfold depMarkNames
  rw [List.mem_filterMap]
  constructor
  · rintro ⟨tv, htv, heq⟩
    by_cases h : strEndsWith tv.pkgName ("-doc") = true
    · rw [if_pos h, Option.some.injEq] at heq
      exact ⟨tv, htv, heq, h⟩
    · rw [if_neg h] at heq
      exact absurd heq (Option.noConfusion)
  · rintro ⟨tv, htv, rfl, h⟩
    exact ⟨tv, htv, by rw [if_pos h]⟩

theorem mem_depMarks {c : Cache} {d : Dep} {name : String} :
    name ∈ depMarks c d ↔
      installed_target_versions c d = [] ∧ name ∈ depMarkNames d := by
  unfold depMarks
  by_cases h : installed_target_versions c d = [] <;> simp [h]

theorem mem_versionMarks {c : Cache} {v : InstVersion} {name : String} :
    name ∈ versionMarks c v ↔
      ∃ d ∈ v.suggests, installed_target_versions c d = [] ∧
        name ∈ depMarkNames d := by
  unfold versionMarks
  simp only [List.mem_flatMap, mem_depMarks]

theorem mem_pkgMarks {c : Cache} {pkg : Package} {name : String} :
    name ∈ pkgMarks c pkg ↔
      ∃ v, pkg.installed = some v ∧ name ∈ versionMarks c v := by
  cases hp : pkg.installed with
  | none => simp [pkgMarks_none c pkg hp, hp]
  | some v => simp [pkgMarks_some c pkg v hp, hp]

theorem mem_findMarks {cache : Cache} {name : String} :
    name ∈ findMarks cache ↔
      ∃ pkg ∈ cache, ∃ v, pkg.installed = some v ∧
        ∃ d ∈ v.suggests, installed_target_versions cache d = [] ∧
          ∃ tv ∈ d.targetVersions,
            tv.pkgName = name ∧ strEndsWith tv.pkgName ("-doc") = true := by
  unfold findMarks
  simp only [List.mem_flatMap, mem_pkgMarks, mem_versionMarks, mem_depMarkNames]

theorem mem_markedNames {c : Cache} {name : String} :
    name ∈ markedNames c ↔ ∃ p ∈ c, p.markInstall = true ∧ p.name = name := by
  unfold markedNames
  simp only [List.mem_map, List.mem_filter]
  constructor
  · rintro ⟨p, ⟨hp, hm⟩, rfl⟩
    exact ⟨p, hp, hm, rfl⟩
  · rintro ⟨p, hp, hm, rfl⟩
    exact ⟨p, ⟨hp, hm⟩, rfl⟩

theorem mem_markedNames_applyMarks {c : Cache} {l : List String}
    {name : String} :
    name ∈ markedNames (applyMarks c l) ↔
      name ∈ markedNames c ∨ (name ∈ l ∧ ∃ p ∈ c, p.name = name) := by
  rw [mem_markedNames, mem_markedNames]
  unfold applyMarks
  simp only [List.mem_map]
  constructor
  · rintro ⟨p, ⟨q, hq, rfl⟩, hmark, hname⟩
    by_cases hql : q.name ∈ l
    · rw [if_pos hql] at hmark hname
      exact Or.inr ⟨by rw [← hname]; exact hql, q, hq, hname⟩
    · rw [if_neg hql] at hmark hname
      exact Or.inl ⟨q, hq, hmark, hname⟩
  · rintro (⟨p, hp, hmark, hname⟩ | ⟨hnl, q, hq, hname⟩)
    · by_cases hpl : p.name ∈ l
      · exact ⟨markPkg p, ⟨p, hp, by rw [if_pos hpl]⟩, rfl, hname⟩
      · exact ⟨p, ⟨p, hp, by rw [if_neg hpl]⟩, hmark, hname⟩
    · have hql : q.name ∈ l := by rw [hname]; exact hnl
      exact ⟨markPkg q, ⟨q, hq, by rw [if_pos hql]⟩, rfl, hname⟩

theorem zip_map_self {α β : Type} (g : α → β) (l : List α) :
    l.zip (l.map g) = l.map (fun a => (a, g a)) := by
  induction l with
  | nil => rfl
  | cons a l ih => simp [ih]

/-- Each entry of `cache.zip (find cache)` pairs a package of the starting
cache with the same package as the scan leaves it. -/
theorem zip_find_mem {cache : Cache} {pq : Package × Package}
    (h : pq ∈ cache.zip (find cache)) :
    pq.1 ∈ cache ∧
      pq.2 = (if pq.1.name ∈ findMarks cache then markPkg pq.1 else pq.1) := by
  rw [find_eq] at h
  unfold applyMarks at h
  rw [zip_map_self] at h
  obtain ⟨a, ha, heq⟩ := List.mem_map.mp h
  refine ⟨?_, ?_⟩
  · rw [← heq]
    exact ha
  · rw [← heq]

/-! Claim theorems. -/

/-- C1: the Scanner marks a name if and only if it was already marked, or
the name belongs to a package of the cache and some suggests relation of
the installed version of an installed package has a candidate version with
that package name, the name ends in `-doc`, and no disjunct of that
relation is already satisfied by an installed version. -/
theorem find_suffix_filter (cache : Cache) (name : String) :
    name ∈ markedNames (find cache) ↔
      name ∈ markedNames cache ∨
        ((∃ p ∈ cache, p.name = name) ∧
          ∃ pkg ∈ cache, ∃ v, pkg.installed = some v ∧
            ∃ d ∈ v.suggests, installed_target_versions cache d = [] ∧
              ∃ tv ∈ d.targetVersions,
                tv.pkgName = name ∧
                  strEndsWith tv.pkgName ("-doc") = true) := by
  rw [find_eq, mem_markedNames_applyMarks, mem_findMarks]
  exact or_congr Iff.rfl and_comm

/-- C2: a suggests relation one disjunct of which is already satisfied by
an installed version is skipped whole: processing it marks no candidate
and leaves the cache unchanged, whatever its candidates' names are. -/
theorem skip_if_satisfied (cache : Cache) (d : Dep)
    (h : installed_target_versions cache d ≠ []) :
    processDep cache d = cache := by
  unfold processDep
  rw [if_pos h]

/-- Witness for C2: a relation already satisfied by installed `libaugeas`,
with another candidate ending in `-doc`, marks nothing. -/
theorem skip_if_satisfied_witness :
    installed_target_versions c2Cache c2Dep ≠ [] ∧
      processDep c2Cache c2Dep = c2Cache :=
  ⟨by decide, skip_if_satisfied c2Cache c2Dep (by decide)⟩

/-- C3: every package the Scanner newly marks for installation has its
`from_user` bit false, i.e. the automatic-install bit set. -/
theorem find_marks_automatic (cache : Cache) (pq : Package × Package)
    (hmem : pq ∈ cache.zip (find cache))
    (h0 : pq.1.markInstall = false) (hm : pq.2.markInstall = true) :
    pq.2.fromUser = false := by
  obtain ⟨-, h2⟩ := zip_find_mem hmem
  by_cases hx : pq.1.name ∈ findMarks cache
  · rw [h2, if_pos hx]
    rfl
  · rw [h2, if_neg hx] at hm
    rw [h0] at hm
    exact Bool.noConfusion hm

/-- Witness for C3: the scan of `c3Cache` marks `augeas-doc`, and the mark
is automatic. -/
theorem find_marks_automatic_witness :
    c3Pair ∈ c3Cache.zip (find c3Cache) ∧ c3Pair.1.markInstall = false ∧
      c3Pair.2.markInstall = true ∧ c3Pair.2.fromUser = false :=
  ⟨by decide, by decide, by decide,
    find_marks_automatic c3Cache c3Pair (by decide) (by decide) (by decide)⟩

/-- C4: the Scanner is idempotent on the marked-package set: scanning the
result of a scan marks exactly what the single scan marked. -/
theorem find_idempotent (cache : Cache) :
    markedNames (find (find cache)) = markedNames (find cache) := by
  rw [find_find]

/-- C5: with `prompt=false`, `describe` never returns true; with
`prompt=true` and a non-empty change set, it returns true exactly when the
lower-cased input line is empty or starts with `y`. -/
theorem describe_gating (cache : Cache) (stdin : List String)
    (line : String) (rest : List String) :
    (∀ r : DescribeResult, describe cache false stdin = some r →
      r.confirmed = false) ∧
    (get_changes cache ≠ [] →
      ∀ r : DescribeResult, describe cache true (line :: rest) = some r →
        (r.confirmed = true ↔
          (strToLower line = "" ∨
            strStartsWith (strToLower line) ("y") = true))) := by
  constructor
  · intro r hr
    unfold describe at hr
    by_cases h : get_changes cache = []
    · rw [if_pos h, Option.some.injEq] at hr
      rw [← hr]
    · rw [if_neg h] at hr
      simp only [Bool.not_false, if_true, Option.some.injEq] at hr
      rw [← hr]
  · intro hne r hr
    unfold describe at hr
    rw [if_neg hne] at hr
    simp only [Bool.not_true, Bool.false_eq_true, if_false] at hr
    by_cases hc :
        (strToLower line == "" ||
          strStartsWith (strToLower line) ("y")) = true
    · simp only [hc, Bool.not_true, Bool.false_eq_true, if_false,
        Option.some.injEq] at hr
      rw [← hr]
      simp only [true_iff]
      rcases Bool.or_eq_true_iff.mp hc with h1 | h1
      · exact Or.inl (eq_of_beq h1)
      · exact Or.inr h1
    · have hc' : (!(strToLower line == "" ||
          strStartsWith (strToLower line) ("y"))) = true := by
        rw [Bool.not_eq_true']
        exact Bool.not_eq_true _ ▸ (Bool.eq_false_iff.mpr hc)
      simp only [hc', if_true, Option.some.injEq] at hr
      rw [← hr]
      simp only [Bool.false_eq_true, false_iff]
      intro hcon
      apply hc
      rcases hcon with h1 | h1
      · rw [Bool.or_eq_true_iff]
        exact Or.inl (by rw [h1]; rfl)
      · rw [Bool.or_eq_true_iff]
        exact Or.inr h1

/-- Witness for C5: on `c5Cache` with input line `yes`, `describe` with
`prompt=true` returns true. -/
theorem describe_gating_witness :
    get_changes c5Cache ≠ [] ∧
      describe c5Cache true ["yes"] = some c5Result ∧
      c5Result.confirmed = true :=
  ⟨by decide, by decide,
    ((describe_gating c5Cache [] ("yes") []).2 (by decide) c5Result
        (by decide)).mpr (by decide)⟩

/-- C6: with an empty change set, `describe` prints the no-changes message
and returns false without reading input, whatever `prompt` is. -/
theorem describe_no_changes (cache : Cache) (prompt : Bool)
    (stdin : List String) (h : get_changes cache = []) :
    describe cache prompt stdin =
      some ⟨false, [OutEvent.allInstalled], cache, stdin⟩ := by
  unfold describe
  rw [if_pos h]

/-- Witness for C6: in `c6Cache` every suggested doc package is already
installed, and `describe` prints the no-changes message, returns false,
and leaves the input unread even with `prompt=true`. -/
theorem describe_no_changes_witness :
    get_changes c6Cache = [] ∧
      describe c6Cache true ["n"] =
        some ⟨false, [OutEvent.allInstalled], c6Cache, ["n"]⟩ :=
  ⟨by decide, describe_no_changes c6Cache true ["n"] (by decide)⟩

/-- C7: on `--help` (or leftover positional arguments) `main` exits with
status 0, but what it prints is the placeholder `TODO(joelh)`, not the
usage text. -/
theorem main_help_prints_todo :
    mainEarlyExit [] true false = some (["TODO(joelh)"], 0) ∧
    mainEarlyExit ["unknown-arg"] false false = some (["TODO(joelh)"], 0) ∧
    "TODO(joelh)" ≠ "Usage: apt-install-docs [OPTION]..." := by
  exact ⟨rfl, rfl, by decide⟩

/-- C8: the Scanner consults only packages that have an installed version:
folding its loop body over the packages whose `installed` is non-null
yields the very same result. -/
theorem find_only_installed (cache : Cache) :
    find cache =
      (cache.filter (fun p => p.installed.isSome)).foldl findStep cache := by
  unfold find
  have hfold : ∀ (l : List Package) (c : Cache),
      (l.filter (fun p => p.installed.isSome)).foldl findStep c =
        l.foldl findStep c := by
    intro l
    induction l with
    | nil =>
      intro c
      rfl
    | cons p ps ih =>
      intro c
      cases hp : p.installed with
      | none =>
        rw [List.foldl_cons, findStep_none c p hp]
        have : (p :: ps).filter (fun p => p.installed.isSome) =
            ps.filter (fun p => p.installed.isSome) := by
          rw [List.filter_cons]
          simp [hp]
        rw [this, ih c]
      | some v =>
        have : (p :: ps).filter (fun p => p.installed.isSome) =
            p :: ps.filter (fun p => p.installed.isSome) := by
          rw [List.filter_cons]
          simp [hp]
        rw [this, List.foldl_cons, List.foldl_cons, ih (findStep c p)]
  rw [hfold cache cache]

/-- C9: `describe` does not mutate the cache: it returns the cache exactly
as it received it, with the same pending change set. -/
theorem describe_frame (cache : Cache) (prompt : Bool) (stdin : List String)
    (r : DescribeResult) (h : describe cache prompt stdin = some r) :
    r.cacheAfter = cache ∧ get_changes r.cacheAfter = get_changes cache := by
  suffices hs : r.cacheAfter = cache by
    exact ⟨hs, by rw [hs]⟩
  unfold describe at h
  by_cases h1 : get_changes cache = []
  · rw [if_pos h1, Option.some.injEq] at h
    rw [← h]
  · rw [if_neg h1] at h
    cases prompt with
    | false =>
      simp only [Bool.not_false, if_true, Option.some.injEq] at h
      rw [← h]
    | true =>
      simp only [Bool.not_true, Bool.false_eq_true, if_false] at h
      cases stdin with
      | nil => exact Option.noConfusion h
      | cons line rest =>
        by_cases hc :
            (!(strToLower line == "" ||
              strStartsWith (strToLower line) ("y"))) = true
        · simp only [hc, if_true, Option.some.injEq] at h
          rw [← h]
        · simp only [Bool.not_eq_true] at hc
          simp only [hc, Bool.false_eq_true, if_false,
            Option.some.injEq] at h
          rw [← h]

/-- Witness for C9: `describe` on `c9Cache` with a declining input returns
the cache unchanged. -/
theorem describe_frame_witness :
    describe c9Cache true ["n"] = some c9Result ∧
      c9Result.cacheAfter = c9Cache ∧
      get_changes c9Result.cacheAfter = get_changes c9Cache :=
  ⟨by decide, describe_frame c9Cache true ["n"] c9Result (by decide)⟩

/-- C10: the Scanner only adds install marks: every package marked before
the scan is still marked after it. -/
theorem find_monotone (cache : Cache) (pq : Package × Package)
    (hmem : pq ∈ cache.zip (find cache)) (hm : pq.1.markInstall = true) :
    pq.2.markInstall = true := by
  obtain ⟨-, h2⟩ := zip_find_mem hmem
  by_cases hx : pq.1.name ∈ findMarks cache
  · rw [h2, if_pos hx]
    rfl
  · rw [h2, if_neg hx]
    exact hm

/-- Witness for C10: a pre-marked `gcc-doc` stays marked through a scan. -/
theorem find_monotone_witness :
    c10Pair ∈ c10Cache.zip (find c10Cache) ∧ c10Pair.1.markInstall = true ∧
      c10Pair.2.markInstall = true :=
  ⟨by decide, by decide,
    find_monotone c10Cache c10Pair (by decide) (by decide)⟩

end AptInstallDocs
